import Mathlib

/-!
# Verification of the ASPIRE Cov2D / coordinate-source specification

This file gives a shallow embedding of the parts of the ASPIRE-Python
repository that the specification talks about, and proves (or refutes)
the spec's claims about them.

Embedding conventions:
* `numpy` floating-point arrays become functions/lists over `ℚ`; the
  floating-point tolerance clauses of the spec become exact equalities
  over `ℚ`.
* Python exceptions become `Except`/inductive error values.
* Python integer `//` becomes `Int.fdiv` (floor division).
* The Cov2D pipeline itself (`RotCov2D`, `Cov2DCTF`, the block-diagonal
  matrix algebra) is only *called* by `examples/denoise_covar2d.py`; its
  implementation is not part of the corpus, so those components are
  modelled from the spec's own description (§4.1–4.3 of the spec), as
  stated in the individual doc comments.
-/

open Matrix Filter

/-! ## Rational matrix inverse

The per-block numerical kernel.  Over `ℚ` the nonsingular inverse
`(det A)⁻¹ • adjugate A` is computable; it agrees with Mathlib's
noncomputable `A⁻¹` (both return junk on singular input).  -/

/-- Computable inverse of a square rational matrix: `(det A)⁻¹ • adjugate A`.
On a singular block this is the zero matrix (junk value), mirroring the
convention of Mathlib's `Matrix.inv`. -/
def matInv {d : ℕ} (A : Matrix (Fin d) (Fin d) ℚ) : Matrix (Fin d) (Fin d) ℚ :=
  (A.det)⁻¹ • A.adjugate

/-! ## Block-diagonal data model for the Cov2D pipeline

A basis with `K` angular-frequency blocks of sizes `B 0, …, B (K-1)`;
a coefficient vector stores one segment per block, and a block-diagonal
matrix stores one square block per angular frequency (only the diagonal
blocks are materialized, as the spec requires). -/

/-- A coefficient vector over a block structure `B : Fin K → ℕ`:
one segment of length `B k` per angular-frequency block `k`. -/
abbrev CoeffVec (K : ℕ) (B : Fin K → ℕ) : Type :=
  (k : Fin K) → Fin (B k) → ℚ

/-- A block-diagonal matrix over the block structure `B`: one square
block per angular frequency. -/
abbrev BlkMat (K : ℕ) (B : Fin K → ℕ) : Type :=
  (k : Fin K) → Matrix (Fin (B k)) (Fin (B k)) ℚ

/-- Modelled from the spec: `RotCov2D.get_mean` (spec §4.2) — the
implementation `aspire.denoise.covar2d.RotCov2D.get_mean` is not in the
corpus, only its call site in `examples/denoise_covar2d.py`.  "returns
the arithmetic mean coefficient vector, but only over coefficient
components for which the rotational symmetry forces non-zero expectation
(the zero angular-frequency block); all other mean components are
analytically zero and returned as such without computing them from
data." -/
def get_mean {n K : ℕ} {B : Fin K → ℕ} (coeff : Fin n → CoeffVec K B) : CoeffVec K B :=
  fun k i => if (k : ℕ) = 0 then (∑ a, coeff a k i) / n else 0

/-- Spec-side reference: the plain arithmetic mean of the coefficient
vectors across images, taken over every component. -/
def sampleMean {n K : ℕ} {B : Fin K → ℕ} (coeff : Fin n → CoeffVec K B) : CoeffVec K B :=
  fun k i => (∑ a, coeff a k i) / n

/-- Modelled from the spec: `RotCov2D.get_covar` (spec §4.2) — the
implementation is not in the corpus.  "for each angular-frequency block,
computes the empirical second moment of the (mean-centered, for block 0
only) coefficients restricted to that block's column range, normalized
by sample count; returns a BlockDiagonalMatrix." -/
def get_covar {n K : ℕ} {B : Fin K → ℕ} (coeff : Fin n → CoeffVec K B)
    (mean : CoeffVec K B) : BlkMat K B :=
  fun k =>
    if (k : ℕ) = 0 then
      (n : ℚ)⁻¹ • ∑ a, vecMulVec (coeff a k - mean k) (coeff a k - mean k)
    else
      (n : ℚ)⁻¹ • ∑ a, vecMulVec (coeff a k) (coeff a k)

/-- Modelled from the spec: the aggregate design matrix of the CTF
normal equations (spec §4.3) — `sum_k filter_fb[k]^T filter_fb[k]`
accumulated over images (each image contributes its group's filter),
normalized by sample count. -/
def ctfDesign {n K G : ℕ} {B : Fin K → ℕ} (filters : Fin G → BlkMat K B)
    (gidx : Fin n → Fin G) : BlkMat K B :=
  fun k => (n : ℚ)⁻¹ • ∑ a, (filters (gidx a) k)ᵀ * (filters (gidx a) k)

/-- Modelled from the spec: the accumulated, filter-conjugated second
moment of the CTF covariance estimator (spec §4.3 step 2) — "for each
group k, center coefficients by `filter_fb[k] @ mean`, compute empirical
second moment of centered, filtered coefficients, and accumulate
`filter_fb[k]^T @ second_moment_k @ filter_fb[k]` weighted by group
size" (group-weighted accumulation equals the per-image sum below),
normalized by sample count. -/
def ctfSecondMoment {n K G : ℕ} {B : Fin K → ℕ} (coeff : Fin n → CoeffVec K B)
    (filters : Fin G → BlkMat K B) (gidx : Fin n → Fin G)
    (mean : CoeffVec K B) : BlkMat K B :=
  fun k => (n : ℚ)⁻¹ • ∑ a,
    (filters (gidx a) k)ᵀ *
      vecMulVec (coeff a k - (filters (gidx a) k).mulVec (mean k))
        (coeff a k - (filters (gidx a) k).mulVec (mean k)) *
      (filters (gidx a) k)

/-- Modelled from the spec: `Cov2DCTF.get_covar_ctf` (spec §4.3 step 2)
— the implementation is not in the corpus.  Accumulates the
filter-conjugated second moment, subtracts `noise_var • identity` from
the 0-block (the spec's primary convention), and solves the blockwise
normal equation `A · covar · A = rhs` with `A` the aggregate design
matrix. -/
def get_covar_ctf {n K G : ℕ} {B : Fin K → ℕ} (coeff : Fin n → CoeffVec K B)
    (filters : Fin G → BlkMat K B) (gidx : Fin n → Fin G)
    (mean : CoeffVec K B) (noise_var : ℚ) : BlkMat K B :=
  fun k =>
    let A := ctfDesign filters gidx k
    let rhs := ctfSecondMoment coeff filters gidx mean k
    let rhs' := if (k : ℕ) = 0 then rhs - noise_var • 1 else rhs
    matInv A * rhs' * matInv A

/-- Modelled from the spec: the per-block Wiener gain of
`Cov2DCTF.get_cwf_coeffs` (spec §4.3 step 3) — the implementation is not
in the corpus.  `Σ F^T (F Σ F^T + σ² I)^{-1}`. -/
def wienerGain {d : ℕ} (S F : Matrix (Fin d) (Fin d) ℚ) (noise_var : ℚ) :
    Matrix (Fin d) (Fin d) ℚ :=
  S * Fᵀ * matInv (F * S * Fᵀ + noise_var • 1)

/-- Modelled from the spec: `Cov2DCTF.get_cwf_coeffs` (spec §4.3 step 3)
— the implementation is not in the corpus.  For each image, using its
group's filter `F`, applies the per-block Wiener gain to
`(coeff - F m)` and adds back `m`, blockwise. -/
def get_cwf_coeffs {n K G : ℕ} {B : Fin K → ℕ} (coeff : Fin n → CoeffVec K B)
    (filters : Fin G → BlkMat K B) (gidx : Fin n → Fin G)
    (mean : CoeffVec K B) (covar : BlkMat K B) (noise_var : ℚ) :
    Fin n → CoeffVec K B :=
  fun a k =>
    (wienerGain (covar k) (filters (gidx a) k) noise_var).mulVec
        (coeff a k - (filters (gidx a) k).mulVec (mean k)) +
      mean k

/-! ## Runtime-checked block-diagonal matrix algebra

Modelled from the spec §4.1 (the implementation
`aspire.utils.blk_diag_func` is not in the corpus, only its call sites
in `examples/denoise_covar2d.py`): an ordered list of dense square
blocks; operations check that the block-size sequences of the two
operands match and raise `ShapeMismatchError` otherwise; `invert`
inverts blockwise and raises `SingularBlockError` on an exactly singular
block unless the pseudo-inverse fallback is enabled. -/

/-- One dense diagonal block of a block-diagonal matrix. -/
structure Blk where
  dim : ℕ
  mat : Matrix (Fin dim) (Fin dim) ℚ

/-- Errors of the block-diagonal algebra (spec §7 taxonomy). -/
inductive BlkError where
  | shapeMismatch
  | singularBlock
deriving DecidableEq

/-- A block-diagonal matrix: the ordered list of its diagonal blocks. -/
abbrev BlockDiagonalMatrix : Type := List Blk

/-- The block-size sequence of a block-diagonal matrix. -/
def blkShape (A : BlockDiagonalMatrix) : List ℕ := A.map Blk.dim

/-- Transport a square rational matrix along an equality of dimensions
(index-wise, avoiding `Eq.rec`). -/
def castMat {e d : ℕ} (h : e = d) (M : Matrix (Fin e) (Fin e) ℚ) :
    Matrix (Fin d) (Fin d) ℚ :=
  fun i j => M (Fin.cast h.symm i) (Fin.cast h.symm j)

/-- Modelled from the spec: `blk_diag_add` / `BlockDiagonalMatrix.add`
(spec §4.1) — blockwise sum; mismatched block-size sequences raise
`ShapeMismatchError`. -/
def blk_diag_add : BlockDiagonalMatrix → BlockDiagonalMatrix →
    Except BlkError BlockDiagonalMatrix
  | [], [] => .ok []
  | a :: as, b :: bs =>
    if h : b.dim = a.dim then
      match blk_diag_add as bs with
      | .ok rest => .ok (⟨a.dim, a.mat + castMat h b.mat⟩ :: rest)
      | .error e => .error e
    else .error .shapeMismatch
  | _, _ => .error .shapeMismatch

/-- Modelled from the spec: `blk_diag_mult` / `BlockDiagonalMatrix.multiply`
(spec §4.1) — blockwise matrix product; mismatched block-size sequences
raise `ShapeMismatchError`. -/
def blk_diag_mult : BlockDiagonalMatrix → BlockDiagonalMatrix →
    Except BlkError BlockDiagonalMatrix
  | [], [] => .ok []
  | a :: as, b :: bs =>
    if h : b.dim = a.dim then
      match blk_diag_mult as bs with
      | .ok rest => .ok (⟨a.dim, a.mat * castMat h b.mat⟩ :: rest)
      | .error e => .error e
    else .error .shapeMismatch
  | _, _ => .error .shapeMismatch

/-- Modelled from the spec: `BlockDiagonalMatrix.invert` (spec §4.1, §8)
— inverts each block independently; an exactly singular block raises
`SingularBlockError` unless the pseudo-inverse fallback is enabled, in
which case that block is replaced by its pseudo-inverse.  The
pseudo-inverse routine itself is not specified by the spec, so it is a
parameter `pinv`. -/
def blk_diag_invert (fallback : Bool)
    (pinv : (d : ℕ) → Matrix (Fin d) (Fin d) ℚ → Matrix (Fin d) (Fin d) ℚ) :
    BlockDiagonalMatrix → Except BlkError BlockDiagonalMatrix
  | [] => .ok []
  | a :: as =>
    if a.mat.det = 0 then
      if fallback then
        match blk_diag_invert fallback pinv as with
        | .ok rest => .ok (⟨a.dim, pinv a.dim a.mat⟩ :: rest)
        | .error e => .error e
      else .error .singularBlock
    else
      match blk_diag_invert fallback pinv as with
      | .ok rest => .ok (⟨a.dim, matInv a.mat⟩ :: rest)
      | .error e => .error e

/-! ## `aspire.denoising.adaptive_support`

Embeds `src/src/aspire/denoising/adaptive_support.py`.  The image data
enters `adaptive_support` only through the per-ring radial averages
(lines 50–60 of the source): the embedding abstracts those two radial
profiles as functions `ℕ → ℚ` and models everything from line 62
(`radial_pspec -= noise_var`) onward, plus the parameter check at lines
31–35.  numpy's non-raising zero-division junk is modelled by `ℚ`'s
junk division. -/

/-- Error raised by the parameter sanity check of `adaptive_support`
(a Python `ValueError`; the spec's `InvalidParameterError`). -/
inductive SupportError where
  | invalidParameter
deriving DecidableEq

/-- `np.linspace a b n`: `n` evenly spaced points from `a` to `b`
inclusive (singleton `[a]` when `n = 1`). -/
def linspace (a b : ℚ) (n : ℕ) : List ℚ :=
  if n = 1 then [a]
  else List.map (fun i : ℕ => a + (b - a) * (i : ℚ) / ((n : ℚ) - 1)) (List.range n)

/-- `np.cumsum`: running partial sums. -/
def cumsum (xs : List ℚ) : List ℚ :=
  (xs.scanl (· + ·) 0).tail

/-- `np.argmax` of the boolean array `xs > t`: the index of the first
entry strictly above `t`, and `0` when there is none. -/
def argmaxGt (t : ℚ) (xs : List ℚ) : ℕ :=
  (xs.findIdx? (fun x => t < x)).getD 0

/-- The Python idiom `idx or -1` on a nonnegative index: `0` is falsy
and becomes `-1`; every other index is kept. -/
def pyOrNegOne (idx : ℕ) : ℤ :=
  if idx = 0 then -1 else idx

/-- Python list indexing with support for negative indices
(`xs[-1]` is the last element); total with junk default `x₀`. -/
def pyGet {α : Type} (x₀ : α) (xs : List α) (i : ℤ) : α :=
  if i < 0 then xs.getD (xs.length - (-i).toNat) x₀ else xs.getD i.toNat x₀

/-- Lines 62–68 of the source: subtract the noise variance from a
radial profile and clip below at `0`. -/
def clipProfile (nv : ℚ) (xs : List ℚ) : List ℚ :=
  xs.map fun x => max (x - nv) 0

/-- The first `N` entries of a radial profile, as a list. -/
def radialList (N : ℕ) (f : ℕ → ℚ) : List ℚ :=
  (List.range N).map f

/-- Normalize a cumulative-energy list by its last entry (line 80/81 of
the source). -/
def normalizeCum (xs : List ℚ) : List ℚ :=
  xs.map fun x => x / xs.getLastD 0

/-- The normalized cumulative power spectrum of `adaptive_support`
(lines 71, 76, 80): cumulative sum of the clipped radial power spectrum
weighted by the Fourier radii `linspace 0 0.5 N`, normalized by its last
entry. -/
def cumPspecNorm (N : ℕ) (radial_pspec : ℕ → ℚ) (noise_var : ℚ) : List ℚ :=
  normalizeCum (cumsum (List.zipWith (· * ·)
    (clipProfile noise_var (radialList N radial_pspec)) (linspace 0 (1/2) N)))

/-- The normalized cumulative radial variance of `adaptive_support`
(lines 73, 77, 81): cumulative sum of the clipped radial variance
weighted by the real-space radii `0, …, N-1`, normalized by its last
entry. -/
def cumVarNorm (N : ℕ) (radial_var : ℕ → ℚ) (noise_var : ℚ) : List ℚ :=
  normalizeCum (cumsum (List.zipWith (· * ·)
    (clipProfile noise_var (radialList N radial_var))
    (List.map (fun i : ℕ => (i : ℚ)) (List.range N))))

/-- Embeds `adaptive_support` (`src/src/aspire/denoising/adaptive_support.py`,
lines 13–92), abstracted over the two radial profiles; `N = L // 2`.
The parameter sanity check comes first; the returned pair is
`(c_limit, R_limit)` computed by the `np.argmax(...) or -1` indexing of
lines 89–90. -/
def adaptive_support (N : ℕ) (radial_pspec radial_var : ℕ → ℚ)
    (noise_var energy_threshold : ℚ) : Except SupportError (ℚ × ℤ) :=
  if energy_threshold ≤ 0 ∨ 1 < energy_threshold then
    .error .invalidParameter
  else
    let c := linspace 0 (1/2) N
    let R := List.map (fun i : ℕ => (i : ℤ)) (List.range N)
    let c_limit := pyGet 0 c (pyOrNegOne (argmaxGt energy_threshold
      (cumPspecNorm N radial_pspec noise_var)))
    let R_limit := pyGet 0 R (pyOrNegOne (argmaxGt energy_threshold
      (cumVarNorm N radial_var noise_var)))
    .ok (c_limit, R_limit)

/-! ## `aspire.source.eman.EmanSource`

Embeds `src/src/aspire/source/eman.py`.  A micrograph is its pixel
array (a list of rows) together with the coordinate lines of its box
file (each line a list of integers `[x, y, w, h, …]`, in file order);
the `OrderedDict` keyed by mrc path becomes the ordered list of
micrographs (STAR-file order).  The `f"{i:06d}@{mrc}"` particle-tag
round trip of `_images` is the identity on this representation. -/

/-- Error raised by `EmanSource.__init__`: Python `ValueError` for
non-square or oversized particles, `IndexError` for malformed/empty box
files. -/
inductive EmanError where
  | valueError
  | indexError
deriving DecidableEq

/-- The body of the per-coordinate loop of `force_particle_size`
(eman.py lines 99–104): set both box sizes to `new_size` and shift the
lower-left corner by `(old_size - new_size) // 2` in both axes. -/
def resize_coord (new_size old_size : ℤ) (coords : List ℤ) : List ℤ :=
  let trim := (old_size - new_size).fdiv 2
  ((((coords.set 2 new_size).set 3 new_size).set 0
      (coords.getD 0 0 + trim)).set 1 (coords.getD 1 0 + trim))

/-- Embeds `force_particle_size` (eman.py lines 93–104): raises when
the requested size exceeds the recorded one, otherwise rewrites every
stored coordinate. -/
def force_particle_size (mrc2coords : List (List (List ℤ)))
    (new_size old_size : ℤ) : Except EmanError (List (List (List ℤ))) :=
  if old_size < new_size then .error .valueError
  else .ok (mrc2coords.map (List.map (resize_coord new_size old_size)))

/-- Embeds the particle-size logic of `EmanSource.__init__` (eman.py
lines 79–112): read the recorded size from the first line of the first
box file (an out-of-range read is an `IndexError`), reject non-square
particles, optionally recrop to a user-specified size, and return the
final particle size together with the (possibly rewritten) coordinate
table. -/
def emanInit (mrc2coords : List (List (List ℤ))) (particle_size : ℤ) :
    Except EmanError (ℤ × List (List (List ℤ))) :=
  match mrc2coords with
  | [] => .error .indexError
  | firstBox :: _ =>
    match firstBox with
    | [] => .error .indexError
    | firstLine :: _ =>
      if firstLine.length < 4 then .error .indexError
      else
        let L := firstLine.getD 2 0
        let other_side := firstLine.getD 3 0
        if L ≠ other_side then .error .valueError
        else if particle_size = 0 then .ok (L, mrc2coords)
        else
          match force_particle_size mrc2coords particle_size L with
          | .error e => .error e
          | .ok m => .ok (particle_size, m)

/-- Python slice-endpoint semantics: clamp an integer index into
`[0, len]`, counting from the end when negative. -/
def pySliceIdx (len : ℕ) (i : ℤ) : ℕ :=
  if i < 0 then ((len : ℤ) + i).toNat else min i.toNat len

/-- Python list slicing `xs[a : b]`, with clamping and negative-index
semantics. -/
def pySlice {α : Type} (xs : List α) (a b : ℤ) : List α :=
  (xs.drop (pySliceIdx xs.length a)).take
    (pySliceIdx xs.length b - pySliceIdx xs.length a)

/-- Embeds `crop_micrograph` (eman.py lines 137–141):
`data[start_y : start_y + size_y, start_x : start_x + size_x]`. -/
def crop_micrograph {α : Type} (data : List (List α)) (coord : List ℤ) :
    List (List α) :=
  let start_x := coord.getD 0 0
  let start_y := coord.getD 1 0
  let size_x := coord.getD 2 0
  let size_y := coord.getD 3 0
  (pySlice data start_y (start_y + size_y)).map fun row =>
    pySlice row start_x (start_x + size_x)

/-- The flat particle list of `EmanSource._images` (eman.py lines
123–130): micrographs in STAR-file order, and within each micrograph its
coordinates in box-file line order; each particle carries its
micrograph's pixel data and its coordinate line. -/
def allParticles {α : Type} (mics : List (List (List α) × List (List ℤ))) :
    List (List (List α) × List ℤ) :=
  mics.flatMap fun mc => mc.2.map fun coord => (mc.1, coord)

/-- Embeds `EmanSource._images` (eman.py lines 114–152) called with an
explicit index list: select the requested particles from the flat
particle list (an out-of-range index is `none`, Python's `IndexError`)
and crop each one from its micrograph. -/
def emanImages {α : Type} (mics : List (List (List α) × List (List ℤ)))
    (indices : List ℕ) : Option (List (List (List α))) :=
  indices.mapM fun i =>
    ((allParticles mics).get? i).map fun p => crop_micrograph p.1 p.2

/-- Spec-side accessor: the number of particles in the micrographs
before index `m` (the global index of the first particle of micrograph
`m`). -/
def countBefore {α : Type} (mics : List (List (List α) × List (List ℤ)))
    (m : ℕ) : ℕ :=
  ((mics.take m).map fun mc => mc.2.length).sum

/-- Spec-side accessor: the total number of particles. -/
def totalParticles {α : Type} (mics : List (List (List α) × List (List ℤ))) : ℕ :=
  (mics.map fun mc => mc.2.length).sum

/-- Blockwise combination of two block-diagonal matrices with matching
shapes (total normal form of the checked operations; on a shape mismatch
it keeps the left block, a junk value never reached under matching
shapes). -/
def blkZipWith (f : (d : ℕ) → Matrix (Fin d) (Fin d) ℚ →
    Matrix (Fin d) (Fin d) ℚ → Matrix (Fin d) (Fin d) ℚ) :
    BlockDiagonalMatrix → BlockDiagonalMatrix → BlockDiagonalMatrix :=
  List.zipWith fun a b =>
    if h : b.dim = a.dim then ⟨a.dim, f a.dim a.mat (castMat h b.mat)⟩ else a

/-- Auxiliary reparametrization of the identity-filter Wiener gain at
noise variance `1/s`: `wienerGain S 1 (1/s)` equals `wienerGainAux S s`
for `s ≠ 0` (proved below), and the latter is continuous at `s = 0`. -/
def wienerGainAux {d : ℕ} (S : Matrix (Fin d) (Fin d) ℚ) (s : ℚ) :
    Matrix (Fin d) (Fin d) ℚ :=
  (s * ((s • S + 1 : Matrix (Fin d) (Fin d) ℚ).det)⁻¹) •
    (S * (s • S + 1 : Matrix (Fin d) (Fin d) ℚ).adjugate)

/-- Concrete coefficient data (two images, two blocks of size one) used
to instantiate theorems at a concrete input. -/
def demoCoeff2 : Fin 2 → CoeffVec 2 (fun _ => 1) := fun _ _ _ => 3

/-- Concrete coefficient data (one image, one block of size one) used to
instantiate theorems at a concrete input. -/
def demoCoeff1 : Fin 1 → CoeffVec 1 (fun _ => 1) := fun _ _ _ => 2

/-- Concrete identity filter bank (one group, one block of size one)
used to instantiate theorems at a concrete input. -/
def demoFilters1 : Fin 1 → BlkMat 1 (fun _ => 1) := fun _ _ => 1

/-- Concrete two-micrograph source (2×2 pixel arrays, three particles
in total) used to instantiate theorems at a concrete input. -/
def demoMics : List (List (List ℤ) × List (List ℤ)) :=
  [([[1, 2], [3, 4]], [[0, 0, 1, 1], [1, 1, 1, 1]]),
   ([[5, 6], [7, 8]], [[0, 1, 1, 1]])]

/-! ## Theorems -/

theorem matInv_eq_inv {d : ℕ} (A : Matrix (Fin d) (Fin d) ℚ) : matInv A = A⁻¹ := by
  rw [Matrix.inv_def, matInv, Ring.inverse_eq_inv]

theorem matInv_one {d : ℕ} : matInv (1 : Matrix (Fin d) (Fin d) ℚ) = 1 := by
  rw [matInv_eq_inv, inv_one]

theorem mul_matInv_self {d : ℕ} (A : Matrix (Fin d) (Fin d) ℚ)
    (h : A.det ≠ 0) : A * matInv A = 1 := by
  rw [matInv_eq_inv]
  exact Matrix.mul_nonsing_inv A (isUnit_iff_ne_zero.mpr h)

/-- C7: for every `energy_threshold` with `energy_threshold ≤ 0` or
`energy_threshold > 1`, `adaptive_support` raises the parameter error
immediately, whatever the data — before any estimation; and for every
`energy_threshold` in `(0, 1]` no parameter error is raised. -/
theorem adaptive_support_param_check (t : ℚ) :
    (t ≤ 0 ∨ 1 < t → ∀ (N : ℕ) (radial_pspec radial_var : ℕ → ℚ) (noise_var : ℚ),
      adaptive_support N radial_pspec radial_var noise_var t =
        .error .invalidParameter) ∧
    (0 < t → t ≤ 1 → ∀ (N : ℕ) (radial_pspec radial_var : ℕ → ℚ) (noise_var : ℚ),
      ∃ r, adaptive_support N radial_pspec radial_var noise_var t = .ok r) := by
  constructor
  · intro h N f g nv
    rw [adaptive_support, if_pos h]
  · intro h1 h2 N f g nv
    rw [adaptive_support, if_neg (by push_neg; exact ⟨h1, h2⟩)]
    exact ⟨_, rfl⟩

theorem adaptive_support_param_check_witness :
    adaptive_support 2 (fun _ => 1) (fun _ => 1) 0 2 =
      .error .invalidParameter ∧
    ∃ r, adaptive_support 2 (fun _ => 1) (fun _ => 1) 0 1 = .ok r :=
  ⟨(adaptive_support_param_check 2).1 (Or.inr (by norm_num)) 2 _ _ 0,
   (adaptive_support_param_check 1).2 (by norm_num) le_rfl 2 _ _ 0⟩

/-- C3: `get_mean` returns, in the zero angular-frequency block, the
arithmetic mean of the corresponding coefficient components across
images, and exactly `0` in every other angular-frequency block. -/
theorem get_mean_blocks {n K : ℕ} {B : Fin K → ℕ} (coeff : Fin n → CoeffVec K B) :
    (∀ (k : Fin K) (i : Fin (B k)), (k : ℕ) = 0 →
      get_mean coeff k i = sampleMean coeff k i) ∧
    (∀ (k : Fin K) (i : Fin (B k)), (k : ℕ) ≠ 0 → get_mean coeff k i = 0) := by
  constructor
  · intro k i hk
    simp [get_mean, sampleMean, hk]
  · intro k i hk
    simp [get_mean, hk]

theorem get_mean_blocks_witness :
    get_mean demoCoeff2 0 0 = sampleMean demoCoeff2 0 0 ∧
    get_mean demoCoeff2 1 0 = 0 :=
  ⟨(get_mean_blocks demoCoeff2).1 0 0 rfl,
   (get_mean_blocks demoCoeff2).2 1 0 (by decide)⟩

/-- C2: `get_covar_ctf` with zero noise variance, an identity filter for
every image, and the corresponding mean `get_mean coeff` returns exactly
the same block-diagonal covariance as `get_covar` on the same
coefficients with the same mean. -/
theorem get_covar_ctf_identity_eq_get_covar {n K G : ℕ} {B : Fin K → ℕ}
    (coeff : Fin n → CoeffVec K B) (filters : Fin G → BlkMat K B)
    (gidx : Fin n → Fin G) (hn : 0 < n)
    (hid : ∀ g k, filters g k = 1) :
    get_covar_ctf coeff filters gidx (get_mean coeff) 0 =
      get_covar coeff (get_mean coeff) := by
  have hnQ : (n : ℚ) ≠ 0 := Nat.cast_ne_zero.mpr hn.ne'
  funext k
  have hA : ctfDesign filters gidx k = 1 := by
    simp only [ctfDesign, hid, Matrix.transpose_one, Matrix.one_mul,
      Finset.sum_const, Finset.card_univ, Fintype.card_fin]
    rw [← Nat.cast_smul_eq_nsmul ℚ, smul_smul, inv_mul_cancel₀ hnQ, one_smul]
  have hM : ctfSecondMoment coeff filters gidx (get_mean coeff) k =
      (n : ℚ)⁻¹ • ∑ a, vecMulVec (coeff a k - get_mean coeff k)
        (coeff a k - get_mean coeff k) := by
    simp only [ctfSecondMoment, hid, Matrix.transpose_one, Matrix.one_mul,
      Matrix.mul_one, Matrix.one_mulVec]
  simp only [get_covar_ctf, get_covar, hA, hM, matInv_one, Matrix.one_mul,
    Matrix.mul_one, zero_smul, sub_zero, ite_self]
  by_cases hk : (k : ℕ) = 0
  · rw [if_pos hk]
  · have hmean : get_mean coeff k = 0 := by
      funext i
      simp [get_mean, hk]
    rw [if_neg hk, hmean]
    simp only [sub_zero]

theorem get_covar_ctf_identity_eq_get_covar_witness :
    get_covar_ctf demoCoeff1 demoFilters1 (fun _ => 0) (get_mean demoCoeff1) 0 =
      get_covar demoCoeff1 (get_mean demoCoeff1) :=
  get_covar_ctf_identity_eq_get_covar demoCoeff1 demoFilters1 (fun _ => 0)
    (by decide) (fun _ _ => rfl)

theorem linspace_length (a b : ℚ) (n : ℕ) : (linspace a b n).length = n := by
  unfold linspace
  split
  · simp [*]
  · simp

theorem getD_mem {α : Type} (x₀ : α) (xs : List α) (k : ℕ) (h : k < xs.length) :
    xs.getD k x₀ ∈ xs := by
  rw [List.getD_eq_getElem xs x₀ h]
  exact List.getElem_mem h

theorem cumPspecNorm_length (N : ℕ) (f : ℕ → ℚ) (nv : ℚ) :
    (cumPspecNorm N f nv).length = N := by
  simp [cumPspecNorm, normalizeCum, cumsum, List.length_tail, List.length_scanl,
    clipProfile, radialList, linspace_length]

theorem cumVarNorm_length (N : ℕ) (g : ℕ → ℚ) (nv : ℚ) :
    (cumVarNorm N g nv).length = N := by
  simp [cumVarNorm, normalizeCum, cumsum, List.length_tail, List.length_scanl,
    clipProfile, radialList]

theorem argmaxGt_zero_or_lt (t : ℚ) (xs : List ℚ) :
    argmaxGt t xs = 0 ∨ argmaxGt t xs < xs.length := by
  unfold argmaxGt
  cases h : xs.findIdx? (fun x => t < x) with
  | none => left; rfl
  | some i =>
    right
    simp only [Option.getD_some]
    exact (List.findIdx?_eq_some_iff_findIdx_eq.mp h).1

theorem argmaxGt_eq_zero_of_all_le (t : ℚ) (xs : List ℚ)
    (h : ∀ x ∈ xs, x ≤ t) : argmaxGt t xs = 0 := by
  unfold argmaxGt
  have hnone : xs.findIdx? (fun x => t < x) = none := by
    rw [List.findIdx?_eq_none_iff]
    intro x hx
    simpa using h x hx
  rw [hnone]
  rfl

theorem argmaxGt_eq_zero_of_head (t : ℚ) (xs : List ℚ)
    (h : t < xs.getD 0 0) : argmaxGt t xs = 0 := by
  cases xs with
  | nil => rfl
  | cons x l =>
    have hx : t < x := by simpa using h
    simp [argmaxGt, List.findIdx?_cons, hx]

theorem pyGet_pyOr_zero {α : Type} (x₀ : α) (xs : List α) :
    pyGet x₀ xs (pyOrNegOne 0) = xs.getD (xs.length - 1) x₀ := by
  norm_num [pyGet, pyOrNegOne]

theorem pyGet_pyOr_pos {α : Type} (x₀ : α) (xs : List α) (idx : ℕ) (h : idx ≠ 0) :
    pyGet x₀ xs (pyOrNegOne idx) = xs.getD idx x₀ := by
  simp [pyGet, pyOrNegOne, h]

theorem pyGet_argmax_spec {α : Type} (t : ℚ) (x₀ : α) (cum : List ℚ) (xs : List α)
    (hne : xs ≠ []) (hlen : cum.length = xs.length) :
    pyGet x₀ xs (pyOrNegOne (argmaxGt t cum)) ∈ xs ∧
    ((∀ x ∈ cum, x ≤ t) →
      pyGet x₀ xs (pyOrNegOne (argmaxGt t cum)) = xs.getD (xs.length - 1) x₀) ∧
    (t < cum.getD 0 0 →
      pyGet x₀ xs (pyOrNegOne (argmaxGt t cum)) = xs.getD (xs.length - 1) x₀) := by
  by_cases hip : argmaxGt t cum = 0
  · rw [hip, pyGet_pyOr_zero]
    have hpos : 0 < xs.length := List.length_pos.mpr hne
    exact ⟨getD_mem _ _ _ (Nat.sub_lt hpos one_pos), fun _ => rfl, fun _ => rfl⟩
  · have hlt : argmaxGt t cum < xs.length := by
      rcases argmaxGt_zero_or_lt t cum with h0 | h0
      · exact absurd h0 hip
      · rwa [hlen] at h0
    rw [pyGet_pyOr_pos _ _ _ hip]
    exact ⟨getD_mem _ _ _ hlt,
      fun hall => absurd (argmaxGt_eq_zero_of_all_le t cum hall) hip,
      fun hh => absurd (argmaxGt_eq_zero_of_head t cum hh) hip⟩

theorem linspace_half_bounds (n : ℕ) :
    ∀ x ∈ linspace 0 (1/2) n, 0 ≤ x ∧ x ≤ 1/2 := by
  intro x hx
  unfold linspace at hx
  split at hx
  · simp only [List.mem_singleton] at hx
    subst hx
    norm_num
  · rename_i hn1
    rcases List.mem_map.mp hx with ⟨i, hi, rfl⟩
    have hiN : i < n := List.mem_range.mp hi
    have hn2 : 2 ≤ n := by omega
    have hd : (0 : ℚ) < (n : ℚ) - 1 := by
      have h2 : (2 : ℚ) ≤ n := by exact_mod_cast hn2
      linarith
    have hi' : (i : ℚ) ≤ (n : ℚ) - 1 := by
      have h1 : (i : ℚ) + 1 ≤ n := by exact_mod_cast hiN
      linarith
    constructor
    · positivity
    · have hq : (i : ℚ) / ((n : ℚ) - 1) ≤ 1 := (div_le_one hd).mpr hi'
      have := mul_le_mul_of_nonneg_left hq (by norm_num : (0:ℚ) ≤ 1/2 - 0)
      rw [mul_one] at this
      calc 0 + (1/2 - 0) * (i : ℚ) / ((n : ℚ) - 1)
          = (1/2 - 0) * ((i : ℚ) / ((n : ℚ) - 1)) := by ring
        _ ≤ 1/2 - 0 := this
        _ ≤ 1/2 := by norm_num

theorem rangeZ_getD (N k : ℕ) (h : k < N) :
    ((List.map (fun i : ℕ => (i : ℤ)) (List.range N)).getD k 0) = (k : ℤ) := by
  have hk : k < (List.map (fun i : ℕ => (i : ℤ)) (List.range N)).length := by
    rw [List.length_map, List.length_range]
    exact h
  rw [List.getD_eq_getElem _ _ hk, List.getElem_map, List.getElem_range]

/-- C8: whenever `adaptive_support` returns, `c_limit` is an element of
`linspace 0 0.5 (L//2)` — hence lies in `[0, 0.5]` — and `R_limit` is an
integer in `[0, L//2 - 1]`; moreover when no cumulative-energy entry
strictly exceeds the threshold, and also when the entry at index `0` is
the first to exceed it (the `np.argmax(...) or -1` idiom maps index `0`
to `-1`), the last (maximal) radius of the corresponding range is
returned. -/
theorem adaptive_support_ranges (N : ℕ) (f g : ℕ → ℚ) (nv t : ℚ)
    (cl : ℚ) (Rl : ℤ) (hN : 1 ≤ N)
    (hret : adaptive_support N f g nv t = .ok (cl, Rl)) :
    cl ∈ linspace 0 (1/2) N ∧ (0 ≤ cl ∧ cl ≤ 1/2) ∧
    (0 ≤ Rl ∧ Rl ≤ (N : ℤ) - 1) ∧
    ((∀ x ∈ cumPspecNorm N f nv, x ≤ t) →
      cl = (linspace 0 (1/2) N).getD (N - 1) 0) ∧
    (t < (cumPspecNorm N f nv).getD 0 0 →
      cl = (linspace 0 (1/2) N).getD (N - 1) 0) ∧
    ((∀ x ∈ cumVarNorm N g nv, x ≤ t) → Rl = (N : ℤ) - 1) ∧
    (t < (cumVarNorm N g nv).getD 0 0 → Rl = (N : ℤ) - 1) := by
  have hclen : (linspace 0 (1/2) N).length = N := linspace_length 0 (1/2) N
  have hcne : linspace 0 (1/2) N ≠ [] :=
    List.length_pos.mp (by rw [hclen]; omega)
  have hRlen : (List.map (fun i : ℕ => (i : ℤ)) (List.range N)).length = N := by
    rw [List.length_map, List.length_range]
  have hRne : (List.map (fun i : ℕ => (i : ℤ)) (List.range N)) ≠ [] :=
    List.length_pos.mp (by rw [hRlen]; omega)
  simp only [adaptive_support] at hret
  by_cases hcond : t ≤ 0 ∨ 1 < t
  · rw [if_pos hcond] at hret
    exact absurd hret (by simp)
  rw [if_neg hcond] at hret
  have hpair := Except.ok.inj hret
  rw [Prod.mk.injEq] at hpair
  obtain ⟨hcl, hRl⟩ := hpair
  subst hcl
  subst hRl
  have hC := pyGet_argmax_spec t (0 : ℚ) (cumPspecNorm N f nv)
    (linspace 0 (1/2) N) hcne ((cumPspecNorm_length N f nv).trans hclen.symm)
  have hR := pyGet_argmax_spec t (0 : ℤ) (cumVarNorm N g nv)
    (List.map (fun i : ℕ => (i : ℤ)) (List.range N)) hRne
    ((cumVarNorm_length N g nv).trans hRlen.symm)
  have hlastR : (List.map (fun i : ℕ => (i : ℤ)) (List.range N)).getD
      ((List.map (fun i : ℕ => (i : ℤ)) (List.range N)).length - 1) 0 =
      (N : ℤ) - 1 := by
    rw [hRlen, rangeZ_getD N (N - 1) (by omega)]
    omega
  refine ⟨hC.1, linspace_half_bounds N _ hC.1, ?_, ?_, ?_, ?_, ?_⟩
  · rcases List.mem_map.mp hR.1 with ⟨k, hk, hkeq⟩
    have hkN : k < N := List.mem_range.mp hk
    constructor
    · rw [← hkeq]
      exact Int.natCast_nonneg k
    · rw [← hkeq]
      omega
  · intro hall
    rw [hC.2.1 hall, hclen]
  · intro hh
    rw [hC.2.2 hh, hclen]
  · intro hall
    rw [hR.2.1 hall, hlastR]
  · intro hh
    rw [hR.2.2 hh, hlastR]

theorem adaptive_support_ranges_witness :
    (0 : ℚ) ∈ linspace 0 (1/2) 1 ∧ ((0 : ℚ) ≤ 0 ∧ (0 : ℚ) ≤ 1/2) ∧
    ((0 : ℤ) ≤ 0 ∧ (0 : ℤ) ≤ ((1 : ℕ) : ℤ) - 1) ∧
    ((∀ x ∈ cumPspecNorm 1 (fun _ => 1) 0, x ≤ 1/2) →
      (0 : ℚ) = (linspace 0 (1/2) 1).getD (1 - 1) 0) ∧
    ((1/2 : ℚ) < (cumPspecNorm 1 (fun _ => 1) 0).getD 0 0 →
      (0 : ℚ) = (linspace 0 (1/2) 1).getD (1 - 1) 0) ∧
    ((∀ x ∈ cumVarNorm 1 (fun _ => 1) 0, x ≤ 1/2) →
      (0 : ℤ) = ((1 : ℕ) : ℤ) - 1) ∧
    ((1/2 : ℚ) < (cumVarNorm 1 (fun _ => 1) 0).getD 0 0 →
      (0 : ℤ) = ((1 : ℕ) : ℤ) - 1) :=
  adaptive_support_ranges 1 (fun _ => 1) (fun _ => 1) 0 (1/2) 0 0
    (by norm_num)
    (by
      unfold adaptive_support
      norm_num [cumPspecNorm, cumVarNorm, normalizeCum, cumsum, clipProfile,
        radialList, linspace, argmaxGt, pyOrNegOne, pyGet, List.range_succ,
        List.range_zero, List.findIdx?_nil, List.findIdx?_cons])

/-- C9: `EmanSource` construction fails with `ValueError` when the first
line of the first box file is non-square, fails with `ValueError` when a
nonzero requested `particle_size` exceeds the recorded size, and for
`0 < particle_size ≤` recorded size succeeds with every stored
coordinate rewritten to the new size, its lower-left corner shifted by
`(old_size - new_size) // 2` in both axes. -/
theorem emanInit_spec (m : List (List (List ℤ))) (ps : ℤ) (fl : List ℤ)
    (hfl : m.head?.bind List.head? = some fl) (h4 : 4 ≤ fl.length) :
    (fl.getD 2 0 ≠ fl.getD 3 0 → emanInit m ps = .error .valueError) ∧
    (fl.getD 2 0 = fl.getD 3 0 → ps ≠ 0 → fl.getD 2 0 < ps →
      emanInit m ps = .error .valueError) ∧
    (fl.getD 2 0 = fl.getD 3 0 → 0 < ps → ps ≤ fl.getD 2 0 →
      emanInit m ps =
        .ok (ps, m.map (List.map (resize_coord ps (fl.getD 2 0))))) ∧
    (∀ c : List ℤ, 4 ≤ c.length →
      (resize_coord ps (fl.getD 2 0) c).getD 0 0 =
        c.getD 0 0 + (fl.getD 2 0 - ps).fdiv 2 ∧
      (resize_coord ps (fl.getD 2 0) c).getD 1 0 =
        c.getD 1 0 + (fl.getD 2 0 - ps).fdiv 2 ∧
      (resize_coord ps (fl.getD 2 0) c).getD 2 0 = ps ∧
      (resize_coord ps (fl.getD 2 0) c).getD 3 0 = ps) := by
  match m, hfl with
  | (fl0 :: ft) :: mt, hfl =>
    have hfl0 : fl0 = fl := by
      simpa using hfl
    subst hfl0
    have hlen : ¬ fl0.length < 4 := by omega
    refine ⟨?_, ?_, ?_, ?_⟩
    · intro hne
      simp only [emanInit]
      rw [if_neg hlen, if_pos hne]
    · intro heq hps0 hlt
      simp only [emanInit]
      rw [if_neg hlen, if_neg (fun h => h heq), if_neg hps0]
      simp only [force_particle_size, if_pos hlt]
    · intro heq hpos hle
      simp only [emanInit]
      rw [if_neg hlen, if_neg (fun h => h heq), if_neg (by omega : ¬ ps = 0)]
      simp only [force_particle_size, if_neg (not_lt.mpr hle)]
    · intro c hc
      match c, hc with
      | a :: b :: w :: h :: rest, _ =>
        simp [resize_coord, List.set, List.getD]

theorem emanInit_spec_witness :
    emanInit [[[0, 0, 6, 4]]] 5 = .error .valueError ∧
    emanInit [[[0, 0, 6, 6]]] 8 = .error .valueError ∧
    emanInit [[[0, 0, 6, 6]]] 4 =
      .ok (4, List.map (List.map (resize_coord 4 6)) [[[0, 0, 6, 6]]]) ∧
    (resize_coord 4 6 [0, 0, 6, 6]).getD 0 0 = 0 + (6 - 4 : ℤ).fdiv 2 :=
  ⟨(emanInit_spec [[[0, 0, 6, 4]]] 5 [0, 0, 6, 4] rfl (by decide)).1 (by decide),
   (emanInit_spec [[[0, 0, 6, 6]]] 8 [0, 0, 6, 6] rfl (by decide)).2.1 rfl
     (by decide) (by decide),
   (emanInit_spec [[[0, 0, 6, 6]]] 4 [0, 0, 6, 6] rfl (by decide)).2.2.1 rfl
     (by decide) (by decide),
   ((emanInit_spec [[[0, 0, 6, 6]]] 4 [0, 0, 6, 6] rfl (by decide)).2.2.2
     [0, 0, 6, 6] (by decide)).1⟩

theorem mapM_option_spec {β : Type} (f : ℕ → Option β) :
    ∀ l : List ℕ, (∀ i ∈ l, (f i).isSome) →
      ∃ out, l.mapM f = some out ∧ out.length = l.length ∧
        ∀ j : ℕ, out[j]? = (l[j]?.bind f) := by
  intro l
  induction l with
  | nil =>
    intro _
    exact ⟨[], rfl, rfl, fun j => by simp⟩
  | cons a l ih =>
    intro hall
    obtain ⟨b, hb⟩ := Option.isSome_iff_exists.mp (hall a (by simp))
    obtain ⟨out, hout, hlen, hidx⟩ := ih fun i hi => hall i (by simp [hi])
    refine ⟨b :: out, ?_, by simp [hlen], ?_⟩
    · rw [List.mapM_cons, hb, hout]
      rfl
    · intro j
      cases j with
      | zero => simp [hb]
      | succ j => simpa using hidx j

theorem allParticles_length {α : Type}
    (mics : List (List (List α) × List (List ℤ))) :
    (allParticles mics).length = totalParticles mics := by
  simp only [allParticles, totalParticles, List.length_flatMap]
  apply congrArg List.sum
  apply List.map_congr_left
  intro mc _
  simp

theorem countBefore_zero {α : Type}
    (mics : List (List (List α) × List (List ℤ))) :
    countBefore mics 0 = 0 := by
  simp [countBefore]

theorem countBefore_succ {α : Type} (mc : List (List α) × List (List ℤ))
    (rest : List (List (List α) × List (List ℤ))) (m : ℕ) :
    countBefore (mc :: rest) (m + 1) = mc.2.length + countBefore rest m := by
  simp [countBefore, List.take_succ_cons]

theorem allParticles_cons {α : Type} (mc : List (List α) × List (List ℤ))
    (rest : List (List (List α) × List (List ℤ))) :
    allParticles (mc :: rest) =
      List.map (fun coord => (mc.1, coord)) mc.2 ++ allParticles rest := by
  simp [allParticles]

theorem allParticles_getElem {α : Type} :
    ∀ (mics : List (List (List α) × List (List ℤ))) (m k : ℕ)
      (data : List (List α)) (coords : List (List ℤ)),
      mics[m]? = some (data, coords) → k < coords.length →
      (allParticles mics)[countBefore mics m + k]? =
        some (data, coords.getD k []) := by
  intro mics
  induction mics with
  | nil =>
    intro m k data coords hm
    simp at hm
  | cons mc rest ih =>
    intro m k data coords hm hk
    cases m with
    | zero =>
      simp only [List.getElem?_cons_zero, Option.some.injEq] at hm
      subst hm
      rw [countBefore_zero, zero_add, allParticles_cons]
      have hklt : k < (List.map (fun coord => (data, coord)) coords).length := by
        simpa using hk
      rw [List.getElem?_append, if_pos hklt, List.getElem?_map,
        List.getElem?_eq_getElem hk, List.getD_eq_getElem coords [] hk]
      rfl
    | succ m =>
      simp only [List.getElem?_cons_succ] at hm
      rw [countBefore_succ, allParticles_cons, add_assoc,
        List.getElem?_append, if_neg (by simp)]
      have hred : mc.2.length + (countBefore rest m + k) -
          (List.map (fun coord => (mc.1, coord)) mc.2).length =
          countBefore rest m + k := by
        simp
      rw [hred]
      exact ih m k data coords hm hk

/-- C10: for every list of valid particle indices (possibly out of order
or strided), `EmanSource._images` returns a stack whose `j`-th entry is
the crop `data[y : y + size_y, x : x + size_x]` of the particle at
global position `indices[j]`, where the global order enumerates
micrographs in STAR-file order and, within a micrograph, coordinates in
box-file line order — i.e. the output order is exactly the requested
index order. -/
theorem emanImages_ordered {α : Type}
    (mics : List (List (List α) × List (List ℤ))) (indices : List ℕ)
    (hvalid : ∀ i ∈ indices, i < totalParticles mics) :
    ∃ out, emanImages mics indices = some out ∧
      out.length = indices.length ∧
      ∀ (j m k : ℕ) (data : List (List α)) (coords : List (List ℤ)),
        indices[j]? = some (countBefore mics m + k) →
        mics[m]? = some (data, coords) → k < coords.length →
        out[j]? = some (crop_micrograph data (coords.getD k [])) := by
  have hsome : ∀ i ∈ indices,
      (((allParticles mics).get? i).map fun p =>
        crop_micrograph p.1 p.2).isSome := by
    intro i hi
    have hlt : i < (allParticles mics).length := by
      rw [allParticles_length]
      exact hvalid i hi
    rw [List.get?_eq_getElem?, List.getElem?_eq_getElem hlt]
    rfl
  obtain ⟨out, hout, hlen, hidx⟩ := mapM_option_spec _ indices hsome
  refine ⟨out, hout, hlen, ?_⟩
  intro j m k data coords hj hm hk
  rw [hidx j, hj]
  have hpart := allParticles_getElem mics m k data coords hm hk
  simp only [Option.some_bind, List.get?_eq_getElem?, hpart]
  rfl

theorem emanImages_ordered_witness :
    ∃ out, emanImages demoMics [2, 0] = some out ∧
      out.length = ([2, 0] : List ℕ).length ∧
      ∀ (j m k : ℕ) (data : List (List ℤ)) (coords : List (List ℤ)),
        ([2, 0] : List ℕ)[j]? = some (countBefore demoMics m + k) →
        demoMics[m]? = some (data, coords) → k < coords.length →
        out[j]? = some (crop_micrograph data (coords.getD k [])) :=
  emanImages_ordered demoMics [2, 0] (by decide)

theorem castMat_rfl {d : ℕ} (M : Matrix (Fin d) (Fin d) ℚ) :
    castMat rfl M = M := rfl

theorem blk_diag_add_eq_zip :
    ∀ (A B : BlockDiagonalMatrix), blkShape A = blkShape B →
      blk_diag_add A B = .ok (blkZipWith (fun _ x y => x + y) A B)
  | [], [], _ => rfl
  | [], _ :: _, h => by simp [blkShape] at h
  | _ :: _, [], h => by simp [blkShape] at h
  | a :: as, b :: bs, h => by
    simp only [blkShape, List.map_cons, List.cons.injEq] at h
    obtain ⟨hd, ht⟩ := h
    simp only [blk_diag_add, blkZipWith, List.zipWith_cons_cons,
      dif_pos hd.symm]
    rw [blk_diag_add_eq_zip as bs ht]
    rfl

theorem blk_diag_mult_eq_zip :
    ∀ (A B : BlockDiagonalMatrix), blkShape A = blkShape B →
      blk_diag_mult A B = .ok (blkZipWith (fun _ x y => x * y) A B)
  | [], [], _ => rfl
  | [], _ :: _, h => by simp [blkShape] at h
  | _ :: _, [], h => by simp [blkShape] at h
  | a :: as, b :: bs, h => by
    simp only [blkShape, List.map_cons, List.cons.injEq] at h
    obtain ⟨hd, ht⟩ := h
    simp only [blk_diag_mult, blkZipWith, List.zipWith_cons_cons,
      dif_pos hd.symm]
    rw [blk_diag_mult_eq_zip as bs ht]
    rfl

theorem blkZipWith_shape (f : (d : ℕ) → Matrix (Fin d) (Fin d) ℚ →
    Matrix (Fin d) (Fin d) ℚ → Matrix (Fin d) (Fin d) ℚ) :
    ∀ (A B : BlockDiagonalMatrix), blkShape A = blkShape B →
      blkShape (blkZipWith f A B) = blkShape A
  | [], _, _ => rfl
  | _ :: _, [], h => by simp [blkShape] at h
  | a :: as, b :: bs, h => by
    simp only [blkShape, List.map_cons, List.cons.injEq] at h
    obtain ⟨hd, ht⟩ := h
    simp only [blkZipWith, List.zipWith_cons_cons, dif_pos hd.symm]
    simp only [blkShape, List.map_cons, List.cons.injEq, true_and]
    exact blkZipWith_shape f as bs ht


theorem blk_diag_add_comm : ∀ (A B : BlockDiagonalMatrix),
    blk_diag_add A B = blk_diag_add B A
  | [], [] => rfl
  | [], _ :: _ => rfl
  | _ :: _, [] => rfl
  | a :: as, b :: bs => by
    obtain ⟨d, x⟩ := a
    obtain ⟨e, y⟩ := b
    by_cases h : e = d
    · subst h
      simp only [blk_diag_add, dite_true]
      rw [blk_diag_add_comm as bs]
      cases blk_diag_add bs as with
      | ok rest =>
        show Except.ok (Blk.mk e (x + y) :: rest) =
          Except.ok (Blk.mk e (y + x) :: rest)
        rw [add_comm]
      | error er => rfl
    · simp only [blk_diag_add, dif_neg h]
      rw [dif_neg (fun hh : d = e => h hh.symm)]

theorem blkZipWith_assoc (f : (d : ℕ) → Matrix (Fin d) (Fin d) ℚ →
    Matrix (Fin d) (Fin d) ℚ → Matrix (Fin d) (Fin d) ℚ)
    (hf : ∀ (d : ℕ) (x y z : Matrix (Fin d) (Fin d) ℚ),
      f d (f d x y) z = f d x (f d y z)) :
    ∀ (A B C : BlockDiagonalMatrix), blkShape A = blkShape B →
      blkShape B = blkShape C →
      blkZipWith f (blkZipWith f A B) C = blkZipWith f A (blkZipWith f B C)
  | [], _, _, _, _ => rfl
  | _ :: _, [], _, h, _ => by simp [blkShape] at h
  | _ :: _, _ :: _, [], _, h => by simp [blkShape] at h
  | a :: as, b :: bs, c :: cs, h1, h2 => by
    obtain ⟨d, x⟩ := a
    obtain ⟨e, y⟩ := b
    obtain ⟨g, z⟩ := c
    simp only [blkShape, List.map_cons, List.cons.injEq] at h1 h2
    obtain ⟨hd1, ht1⟩ := h1
    obtain ⟨hd2, ht2⟩ := h2
    subst hd1
    subst hd2
    have htail := blkZipWith_assoc f hf as bs cs ht1 ht2
    simp only [blkZipWith, List.zipWith_cons_cons, dite_true] at htail ⊢
    rw [htail]
    show Blk.mk d (f d (f d x y) z) :: _ = Blk.mk d (f d x (f d y z)) :: _
    rw [hf d x y z]

theorem blk_diag_invert_cons (fb : Bool)
    (pinv : (d : ℕ) → Matrix (Fin d) (Fin d) ℚ → Matrix (Fin d) (Fin d) ℚ)
    (a : Blk) (as : List Blk) :
    blk_diag_invert fb pinv (a :: as) =
      if a.mat.det = 0 then
        if fb then
          match blk_diag_invert fb pinv as with
          | .ok rest => .ok (⟨a.dim, pinv a.dim a.mat⟩ :: rest)
          | .error e => .error e
        else .error .singularBlock
      else
        match blk_diag_invert fb pinv as with
        | .ok rest => .ok (⟨a.dim, matInv a.mat⟩ :: rest)
        | .error e => .error e := rfl

theorem blk_diag_invert_all_ok (fb : Bool)
    (pinv : (d : ℕ) → Matrix (Fin d) (Fin d) ℚ → Matrix (Fin d) (Fin d) ℚ) :
    ∀ (Q : BlockDiagonalMatrix), (∀ b ∈ Q, b.mat.det ≠ 0) →
      blk_diag_invert fb pinv Q = .ok (Q.map fun b => ⟨b.dim, matInv b.mat⟩)
  | [], _ => rfl
  | a :: as, h => by
    have ha : ¬ a.mat.det = 0 := h a (by simp)
    have hrest := blk_diag_invert_all_ok fb pinv as fun b hb => h b (by simp [hb])
    rw [blk_diag_invert_cons, if_neg ha, hrest]
    rfl

/-- C5: on a block-diagonal matrix with exactly one exactly-singular
block, `invert` fails with `SingularBlockError` when the pseudo-inverse
fallback is disabled; with the fallback enabled it succeeds, replacing
the singular block by its pseudo-inverse and every other block by its
ordinary inverse.  The pseudo-inverse routine is a parameter, since the
spec leaves it unspecified. -/
theorem blk_diag_invert_singular
    (pinv : (d : ℕ) → Matrix (Fin d) (Fin d) ℚ → Matrix (Fin d) (Fin d) ℚ)
    (P Q : BlockDiagonalMatrix) (s : Blk)
    (hP : ∀ b ∈ P, b.mat.det ≠ 0) (hs : s.mat.det = 0)
    (hQ : ∀ b ∈ Q, b.mat.det ≠ 0) :
    blk_diag_invert false pinv (P ++ s :: Q) = .error .singularBlock ∧
    blk_diag_invert true pinv (P ++ s :: Q) =
      .ok ((P.map fun b => ⟨b.dim, matInv b.mat⟩) ++
        ⟨s.dim, pinv s.dim s.mat⟩ ::
          (Q.map fun b => ⟨b.dim, matInv b.mat⟩)) := by
  induction P with
  | nil =>
    constructor
    · rw [List.nil_append, blk_diag_invert_cons, if_pos hs]
      rfl
    · rw [List.nil_append, blk_diag_invert_cons, if_pos hs,
        blk_diag_invert_all_ok true pinv Q hQ]
      rfl
  | cons a P ih =>
    have ha : ¬ a.mat.det = 0 := hP a (by simp)
    have ih' := ih fun b hb => hP b (by simp [hb])
    constructor
    · rw [List.cons_append, blk_diag_invert_cons, if_neg ha, ih'.1]
    · rw [List.cons_append, blk_diag_invert_cons, if_neg ha, ih'.2]
      rfl

theorem blk_diag_invert_singular_witness :
    blk_diag_invert false (fun _ _ => 0)
        ([⟨1, 1⟩] ++ (⟨1, 0⟩ : Blk) :: [⟨1, 1⟩]) = .error .singularBlock ∧
    blk_diag_invert true (fun _ _ => 0)
        ([⟨1, 1⟩] ++ (⟨1, 0⟩ : Blk) :: [⟨1, 1⟩]) =
      .ok [⟨1, matInv 1⟩, ⟨1, (0 : Matrix (Fin 1) (Fin 1) ℚ)⟩,
        ⟨1, matInv 1⟩] :=
  blk_diag_invert_singular (fun _ _ => 0) [⟨1, 1⟩] [⟨1, 1⟩] ⟨1, 0⟩
    (by simp [Matrix.det_fin_one])
    (by simp [Matrix.det_fin_one])
    (by simp [Matrix.det_fin_one])

/-- C6: for block-diagonal matrices built from the same block-size
sequence, `add` and `multiply` succeed and preserve the sequence; `add`
is commutative, and both `add` and `multiply` are associative (exactly,
over `ℚ`). -/
theorem blk_diag_algebra (sizes : List ℕ) (A B C : BlockDiagonalMatrix)
    (hA : blkShape A = sizes) (hB : blkShape B = sizes)
    (hC : blkShape C = sizes) :
    (∃ D, blk_diag_add A B = .ok D ∧ blkShape D = sizes) ∧
    (∃ D, blk_diag_mult A B = .ok D ∧ blkShape D = sizes) ∧
    blk_diag_add A B = blk_diag_add B A ∧
    ((blk_diag_add A B).bind fun D => blk_diag_add D C) =
      ((blk_diag_add B C).bind fun D => blk_diag_add A D) ∧
    ((blk_diag_mult A B).bind fun D => blk_diag_mult D C) =
      ((blk_diag_mult B C).bind fun D => blk_diag_mult A D) := by
  have hAB : blkShape A = blkShape B := hA.trans hB.symm
  have hBC : blkShape B = blkShape C := hB.trans hC.symm
  refine ⟨?_, ?_, blk_diag_add_comm A B, ?_, ?_⟩
  · exact ⟨_, blk_diag_add_eq_zip A B hAB,
      (blkZipWith_shape _ A B hAB).trans hA⟩
  · exact ⟨_, blk_diag_mult_eq_zip A B hAB,
      (blkZipWith_shape _ A B hAB).trans hA⟩
  · have h1 : blkShape (blkZipWith (fun _ x y => x + y) A B) = blkShape C :=
      (blkZipWith_shape _ A B hAB).trans (hAB.trans hBC)
    have h2 : blkShape A = blkShape (blkZipWith (fun _ x y => x + y) B C) :=
      hAB.trans (blkZipWith_shape _ B C hBC).symm
    rw [blk_diag_add_eq_zip A B hAB, blk_diag_add_eq_zip B C hBC]
    show blk_diag_add (blkZipWith (fun _ x y => x + y) A B) C =
      blk_diag_add A (blkZipWith (fun _ x y => x + y) B C)
    rw [blk_diag_add_eq_zip _ C h1, blk_diag_add_eq_zip A _ h2,
      blkZipWith_assoc (fun _ x y => x + y)
        (fun d x y z => add_assoc x y z) A B C hAB hBC]
  · have h1 : blkShape (blkZipWith (fun _ x y => x * y) A B) = blkShape C :=
      (blkZipWith_shape _ A B hAB).trans (hAB.trans hBC)
    have h2 : blkShape A = blkShape (blkZipWith (fun _ x y => x * y) B C) :=
      hAB.trans (blkZipWith_shape _ B C hBC).symm
    rw [blk_diag_mult_eq_zip A B hAB, blk_diag_mult_eq_zip B C hBC]
    show blk_diag_mult (blkZipWith (fun _ x y => x * y) A B) C =
      blk_diag_mult A (blkZipWith (fun _ x y => x * y) B C)
    rw [blk_diag_mult_eq_zip _ C h1, blk_diag_mult_eq_zip A _ h2,
      blkZipWith_assoc (fun _ x y => x * y)
        (fun d x y z => mul_assoc x y z) A B C hAB hBC]

theorem blk_diag_algebra_witness :
    (∃ D, blk_diag_add [⟨1, 1⟩] [⟨1, 0⟩] = .ok D ∧ blkShape D = [1]) ∧
    (∃ D, blk_diag_mult [⟨1, 1⟩] [⟨1, 0⟩] = .ok D ∧ blkShape D = [1]) ∧
    blk_diag_add [⟨1, 1⟩] [⟨1, 0⟩] = blk_diag_add [⟨1, 0⟩] [⟨1, 1⟩] ∧
    ((blk_diag_add [⟨1, 1⟩] [⟨1, 0⟩]).bind fun D =>
        blk_diag_add D [⟨1, 1⟩]) =
      ((blk_diag_add [⟨1, 0⟩] [⟨1, 1⟩]).bind fun D =>
        blk_diag_add [⟨1, 1⟩] D) ∧
    ((blk_diag_mult [⟨1, 1⟩] [⟨1, 0⟩]).bind fun D =>
        blk_diag_mult D [⟨1, 1⟩]) =
      ((blk_diag_mult [⟨1, 0⟩] [⟨1, 1⟩]).bind fun D =>
        blk_diag_mult [⟨1, 1⟩] D) :=
  blk_diag_algebra [1] [⟨1, 1⟩] [⟨1, 0⟩] [⟨1, 1⟩] rfl rfl rfl

theorem wienerGain_one {d : ℕ} (S : Matrix (Fin d) (Fin d) ℚ) (t : ℚ) :
    wienerGain S 1 t = S * matInv (S + t • 1) := by
  simp [wienerGain, Matrix.transpose_one, Matrix.mul_one, Matrix.one_mul]

theorem wienerGain_id_zero {d : ℕ} (S : Matrix (Fin d) (Fin d) ℚ)
    (h : S.det ≠ 0) : wienerGain S 1 0 = 1 := by
  rw [wienerGain_one, zero_smul, add_zero, mul_matInv_self S h]

theorem cont_aff {d : ℕ} (S : Matrix (Fin d) (Fin d) ℚ) :
    Continuous (fun s : ℚ => (s • S + 1 : Matrix (Fin d) (Fin d) ℚ)) :=
  (continuous_id.smul continuous_const).add continuous_const

theorem cont_det {d : ℕ} (S : Matrix (Fin d) (Fin d) ℚ) :
    Continuous (fun s : ℚ => (s • S + 1 : Matrix (Fin d) (Fin d) ℚ).det) :=
  (cont_aff S).matrix_det

theorem aff_zero {d : ℕ} (S : Matrix (Fin d) (Fin d) ℚ) :
    (0 : ℚ) • S + 1 = (1 : Matrix (Fin d) (Fin d) ℚ) := by
  rw [zero_smul, zero_add]

theorem det_tendsto_one {d : ℕ} (S : Matrix (Fin d) (Fin d) ℚ) :
    Tendsto (fun s : ℚ => (s • S + 1 : Matrix (Fin d) (Fin d) ℚ).det)
      (nhds 0) (nhds 1) := by
  have h := (cont_det S).tendsto 0
  rw [aff_zero, Matrix.det_one] at h
  exact h

theorem scal_tendsto_zero {d : ℕ} (S : Matrix (Fin d) (Fin d) ℚ) :
    Tendsto (fun s : ℚ =>
      s * ((s • S + 1 : Matrix (Fin d) (Fin d) ℚ).det)⁻¹) (nhds 0) (nhds 0) := by
  have h1 := (tendsto_id (α := ℚ) (x := nhds 0)).mul
    ((det_tendsto_one S).inv₀ one_ne_zero)
  rw [inv_one, mul_one] at h1
  exact h1

theorem cont_adj_part {d : ℕ} (S : Matrix (Fin d) (Fin d) ℚ) :
    Continuous (fun s : ℚ =>
      S * (s • S + 1 : Matrix (Fin d) (Fin d) ℚ).adjugate) :=
  continuous_const.matrix_mul (cont_aff S).matrix_adjugate

theorem wienerGainAux_tendsto {d : ℕ} (S : Matrix (Fin d) (Fin d) ℚ) :
    Tendsto (wienerGainAux S) (nhds 0) (nhds 0) := by
  have hmat := (cont_adj_part S).tendsto 0
  have h := (scal_tendsto_zero S).smul hmat
  rw [zero_smul] at h
  exact h

theorem wienerGainAux_eq {d : ℕ} (hd : 0 < d) (S : Matrix (Fin d) (Fin d) ℚ)
    (t : ℚ) (ht : t ≠ 0) :
    S * matInv (S + t • 1) = wienerGainAux S t⁻¹ := by
  obtain ⟨e, rfl⟩ : ∃ e, d = e + 1 := ⟨d - 1, by omega⟩
  have hM : S + t • (1 : Matrix (Fin (e + 1)) (Fin (e + 1)) ℚ) =
      t • (t⁻¹ • S + 1) := by
    rw [smul_add, smul_smul, mul_inv_cancel₀ ht, one_smul]
  rw [hM, matInv, Matrix.det_smul, Matrix.adjugate_smul]
  simp only [Fintype.card_fin, Nat.add_sub_cancel]
  rw [smul_smul, Matrix.mul_smul, wienerGainAux]
  congr 1
  rw [mul_inv, pow_succ, mul_inv]
  calc (t ^ e)⁻¹ * t⁻¹ * ((t⁻¹ • S + 1).det)⁻¹ * t ^ e
      = ((t ^ e)⁻¹ * t ^ e) * (t⁻¹ * ((t⁻¹ • S + 1).det)⁻¹) := by ring
    _ = t⁻¹ * ((t⁻¹ • S + 1).det)⁻¹ := by
        rw [inv_mul_cancel₀ (pow_ne_zero e ht), one_mul]

theorem wienerGain_tendsto_zero {d : ℕ} (S : Matrix (Fin d) (Fin d) ℚ) :
    Tendsto (fun t : ℚ => wienerGain S 1 t) atTop (nhds 0) := by
  rcases Nat.eq_zero_or_pos d with hd | hd
  · subst hd
    have hz : (fun t : ℚ => wienerGain S 1 t) =
        fun _ => (0 : Matrix (Fin 0) (Fin 0) ℚ) := by
      funext t
      exact Matrix.ext fun i => i.elim0
    rw [hz]
    exact tendsto_const_nhds
  · have h1 : Tendsto (fun t : ℚ => wienerGainAux S t⁻¹) atTop (nhds 0) :=
      (wienerGainAux_tendsto S).comp tendsto_inv_atTop_zero
    refine Filter.Tendsto.congr' ?_ h1
    filter_upwards [Filter.eventually_ne_atTop (0 : ℚ)] with t ht
    exact ((wienerGain_one S t).trans (wienerGainAux_eq hd S t ht)).symm

/-- C1: `get_cwf_coeffs` applies the per-block Wiener gain
`Σ Fᵀ (F Σ Fᵀ + σ² I)⁻¹` to `(coeff - F m)` and adds back `m`,
blockwise; holding the covariance fixed and taking every filter to be
the identity, the gain is the identity matrix at `σ² = 0` (the estimate
equals the input coefficients) and tends to the zero matrix as
`σ² → ∞` (the estimate tends to the mean). -/
theorem get_cwf_coeffs_wiener {n K G : ℕ} {B : Fin K → ℕ}
    (coeff : Fin n → CoeffVec K B) (gidx : Fin n → Fin G)
    (mean : CoeffVec K B) (covar : BlkMat K B)
    (hdet : ∀ k, (covar k).det ≠ 0) :
    (∀ (filters : Fin G → BlkMat K B) (noise_var : ℚ) (a : Fin n) (k : Fin K),
      get_cwf_coeffs coeff filters gidx mean covar noise_var a k =
        (wienerGain (covar k) (filters (gidx a) k) noise_var).mulVec
          (coeff a k - (filters (gidx a) k).mulVec (mean k)) + mean k) ∧
    (∀ k, wienerGain (covar k) 1 0 = 1) ∧
    get_cwf_coeffs coeff (fun _ _ => 1) gidx mean covar 0 = coeff ∧
    (∀ k, Tendsto (fun noise_var : ℚ => wienerGain (covar k) 1 noise_var)
      atTop (nhds 0)) ∧
    (∀ (a : Fin n) (k : Fin K), Tendsto (fun noise_var : ℚ =>
      get_cwf_coeffs coeff (fun _ _ => 1) gidx mean covar noise_var a k)
      atTop (nhds (mean k))) := by
  have hgain1 : ∀ k, wienerGain (covar k) 1 0 = 1 :=
    fun k => wienerGain_id_zero (covar k) (hdet k)
  refine ⟨fun _ _ _ _ => rfl, hgain1, ?_, fun k => wienerGain_tendsto_zero _, ?_⟩
  · funext a k
    show (wienerGain (covar k) 1 0).mulVec
        (coeff a k - (1 : Matrix (Fin (B k)) (Fin (B k)) ℚ).mulVec (mean k)) +
        mean k = coeff a k
    rw [hgain1 k, Matrix.one_mulVec, Matrix.one_mulVec, sub_add_cancel]
  · intro a k
    have hT : Continuous (fun M : Matrix (Fin (B k)) (Fin (B k)) ℚ =>
        M.mulVec (coeff a k -
          (1 : Matrix (Fin (B k)) (Fin (B k)) ℚ).mulVec (mean k)) + mean k) :=
      (continuous_id.matrix_mulVec continuous_const).add continuous_const
    have h0 := (hT.tendsto 0).comp (wienerGain_tendsto_zero (covar k))
    rw [Matrix.zero_mulVec, zero_add] at h0
    exact h0

theorem get_cwf_coeffs_wiener_witness :
    (∀ (filters : Fin 1 → BlkMat 1 (fun _ => 1)) (noise_var : ℚ)
        (a : Fin 1) (k : Fin 1),
      get_cwf_coeffs demoCoeff1 filters (fun _ : Fin 1 => (0 : Fin 1))
          (get_mean demoCoeff1) (fun _ => 1) noise_var a k =
        (wienerGain (1 : Matrix (Fin 1) (Fin 1) ℚ) (filters 0 k)
            noise_var).mulVec
          (demoCoeff1 a k - (filters 0 k).mulVec (get_mean demoCoeff1 k)) +
          get_mean demoCoeff1 k) ∧
    (∀ _ : Fin 1, wienerGain (1 : Matrix (Fin 1) (Fin 1) ℚ) 1 0 = 1) ∧
    get_cwf_coeffs demoCoeff1 (fun _ _ => 1) (fun _ : Fin 1 => (0 : Fin 1))
        (get_mean demoCoeff1) (fun _ => 1) 0 = demoCoeff1 ∧
    (∀ _ : Fin 1, Tendsto (fun noise_var : ℚ =>
      wienerGain (1 : Matrix (Fin 1) (Fin 1) ℚ) 1 noise_var)
      atTop (nhds 0)) ∧
    (∀ (a k : Fin 1), Tendsto (fun noise_var : ℚ =>
      get_cwf_coeffs demoCoeff1 (fun _ _ => 1) (fun _ : Fin 1 => (0 : Fin 1))
        (get_mean demoCoeff1) (fun _ => 1) noise_var a k)
      atTop (nhds (get_mean demoCoeff1 k))) :=
  get_cwf_coeffs_wiener demoCoeff1 (fun _ : Fin 1 => (0 : Fin 1))
    (get_mean demoCoeff1) (fun _ => 1) (fun _ => by simp)
